import Mathlib

/-!
Verification of the stacking / radial-profile engine of `stacked-seds`
(`stacked_seds/stacking.py` and `stacked_seds/photometry.py`).

Modelling conventions:
* a 2D image is a value map `ℕ → ℕ → ℚ` (row, column ↦ sample) together with
  explicit height/width bounds where they matter;
* exact pixel arithmetic is carried out in `ℚ`; `ℝ` (with `Real.sqrt`) enters
  only where the Python code takes a square root;
* IEEE division is modelled by `fdiv : ℝ → ℝ → Option ℝ`, where `none` stands
  for a non-finite result (numpy produces `inf`/`nan` when the divisor is 0);
* fallible code returns `Except`;
* `scipy.stats.trim_mean` and `scipy.stats.median_abs_deviation` are embedded
  from their documented sort/cut/median algorithms; the iterative
  floating-point solver `scipy.optimize.curve_fit` and the string→float
  parsers (`float`, `SkyCoord`) are abstracted as oracle parameters.
-/

namespace SED

/-! ### Sorting and basic statistics helpers -/

/-- Ascending sort of a list of rationals.  This models `np.sort` /
`np.partition`-then-slice: only the sorted order of the values matters. -/
def sortQ (xs : List ℚ) : List ℚ := List.insertionSort (· ≤ ·) xs

/-- Python `int(q)`: truncation of a rational towards zero. -/
def pyInt (q : ℚ) : ℤ := if q < 0 then ⌈q⌉ else ⌊q⌋

/-- The list of per-pixel values across the stack: `stamps[:, i, j]`.
A stamp is represented by its pixel-value map `ℕ → ℕ → ℚ`. -/
def pixelStack (stamps : List (ℕ → ℕ → ℚ)) (i j : ℕ) : List ℚ :=
  stamps.map (fun s => s i j)

/-- The number of values `scipy.stats.trim_mean` cuts from each end:
`lowercut = int(proportiontocut * nobs)`. -/
def trimCut (n : ℕ) (proportiontocut : ℚ) : ℕ :=
  (pyInt (proportiontocut * n)).toNat

/-- Mean of the sorted slice `sorted(xs)[lowercut:uppercut]`, the value
computed by `scipy.stats.trim_mean` once its cut validation has passed. -/
def trimmedMeanVal (xs : List ℚ) (lowercut uppercut : ℕ) : ℚ :=
  let kept := ((sortQ xs).drop lowercut).take (uppercut - lowercut)
  kept.sum / kept.length

/-- The spec's trimmed mean: sort the values, remove `k` values from each
end, and average the remainder. -/
def specTrimmedMean (xs : List ℚ) (k : ℕ) : ℚ :=
  let s := sortQ xs
  let kept := (s.drop k).take (s.length - 2 * k)
  kept.sum / kept.length

/-- Model of `np.median`: middle element of the sorted list for odd length, average of
the two middle elements for even length. -/
def npMedian (xs : List ℚ) : ℚ :=
  let s := sortQ xs
  let n := s.length
  if n % 2 = 1 then s.getD (n / 2) 0
  else (s.getD (n / 2 - 1) 0 + s.getD (n / 2) 0) / 2

/-- Model of `scipy.stats.median_abs_deviation` with its default unit scale:
the median of the absolute deviations from the median. -/
def madQ (xs : List ℚ) : ℚ :=
  npMedian (xs.map (fun v => |v - npMedian xs|))

/-- IEEE-style division: `none` models the non-finite float (`inf` or `nan`)
numpy produces when the divisor is zero. -/
noncomputable def fdiv (a b : ℝ) : Option ℝ :=
  if b = 0 then none else some (a / b)

/-! ### `stack_images` (stacking.py lines 106-131) -/

/-- Failure modes of `stack_images`: the explicit `ValueError` raised on an
empty stack, and the `ValueError` raised inside `scipy.stats.trim_mean` when
the requested cuts overlap (`lowercut > uppercut`). -/
inductive StackError
  | emptyStack
  | trimTooBig
deriving DecidableEq

/-- The stacked image: per-pixel trimmed mean
`stats.trim_mean(stamps, trim_fraction, axis=0)`. -/
def stackedMap (stamps : List (ℕ → ℕ → ℚ)) (trim_fraction : ℚ) : ℕ → ℕ → ℚ :=
  fun i j =>
    trimmedMeanVal (pixelStack stamps i j)
      (trimCut stamps.length trim_fraction)
      (stamps.length - trimCut stamps.length trim_fraction)

/-- Per-pixel error:
`stats.median_abs_deviation(stamps, axis=0) * 1.4826 / np.sqrt(N - 1)`. -/
noncomputable def errPixel (stamps : List (ℕ → ℕ → ℚ)) (i j : ℕ) : Option ℝ :=
  fdiv ((madQ (pixelStack stamps i j) * (14826 / 10000) : ℚ) : ℝ)
    (Real.sqrt ((stamps.length : ℝ) - 1))

/-- The error map returned by `stack_images`. -/
noncomputable def errMap (stamps : List (ℕ → ℕ → ℚ)) : ℕ → ℕ → Option ℝ :=
  fun i j => errPixel stamps i j

/-- Embedding of `stack_images(stamps, trim_fraction)`: raise on an empty
stack, let `scipy.stats.trim_mean` validate the cut sizes once for the whole
array, then return the per-pixel trimmed mean and the MAD-based error map. -/
noncomputable def stack_images (stamps : List (ℕ → ℕ → ℚ)) (trim_fraction : ℚ) :
    Except StackError ((ℕ → ℕ → ℚ) × (ℕ → ℕ → Option ℝ)) :=
  if stamps.length = 0 then .error .emptyStack
  else
    let lowercut := trimCut stamps.length trim_fraction
    let uppercut := stamps.length - lowercut
    if uppercut < lowercut then .error .trimTooBig
    else .ok (stackedMap stamps trim_fraction, errMap stamps)

/-- A single constant stamp, used as concrete input for the `N = 1` boundary
case. -/
def oneStamp : List (ℕ → ℕ → ℚ) := [fun _ _ => 5]

/-- Two constant stamps with per-pixel values 0 and 2. -/
def twoStamps : List (ℕ → ℕ → ℚ) := [fun _ _ => 0, fun _ _ => 2]

/-! ### `create_stamps` (stacking.py lines 72-103)

`astropy.nddata.Cutout2D` in its default `mode='trim'` computes, per axis,
the edge indices `ceil(pos - size/2)` and `ceil(pos + size/2)`
(`astropy.nddata.utils.overlap_slices`), raises `NoOverlapError` when the
box lies entirely outside the array, and otherwise returns the block of the
image clipped to the array bounds. -/

/-- The rectangular sub-block of the image with rows `[rlo, rhi)` and
columns `[clo, chi)`. -/
def cutoutBlock (img : ℕ → ℕ → ℚ) (rlo rhi clo chi : ℕ) : List (List ℚ) :=
  (List.range (rhi - rlo)).map
    (fun r => (List.range (chi - clo)).map (fun c => img (rlo + r) (clo + c)))

/-- The numpy shape `(rows, cols)` of a 2D block. -/
def shape2 (blk : List (List ℚ)) : ℕ × ℕ := (blk.length, (blk.headD []).length)

/-- Embedding of `Cutout2D(image_data, (x, y), (s, s), mode='trim')`:
`error` models the exceptions (`NoOverlapError`) the `except` clause of
`create_stamps` swallows, `ok` carries the (possibly trimmed) data block. -/
def cutout2D (img : ℕ → ℕ → ℚ) (H W : ℕ) (pos : ℚ × ℚ) (s : ℕ) :
    Except Unit (List (List ℚ)) :=
  let xmin : ℤ := ⌈pos.1 - (s : ℚ) / 2⌉
  let xmax : ℤ := ⌈pos.1 + (s : ℚ) / 2⌉
  let ymin : ℤ := ⌈pos.2 - (s : ℚ) / 2⌉
  let ymax : ℤ := ⌈pos.2 + (s : ℚ) / 2⌉
  if xmax ≤ 0 ∨ (W : ℤ) ≤ xmin ∨ ymax ≤ 0 ∨ (H : ℤ) ≤ ymin then .error ()
  else
    .ok (cutoutBlock img (max 0 ymin).toNat (min (H : ℤ) ymax).toNat
      (max 0 xmin).toNat (min (W : ℤ) xmax).toNat)

/-- Embedding of `create_stamps`: cut a `(s, s)` box around every coordinate,
silently dropping coordinates whose cutout raises or whose trimmed block is
not exactly `(s, s)`. -/
def create_stamps (img : ℕ → ℕ → ℚ) (H W : ℕ) (pixel_coords : List (ℚ × ℚ))
    (stamp_size : ℕ) : List (List (List ℚ)) :=
  pixel_coords.foldr
    (fun c acc =>
      match cutout2D img H W c stamp_size with
      | .error _ => acc
      | .ok blk =>
        if shape2 blk = (stamp_size, stamp_size) then blk :: acc else acc)
    []

/-- A coordinate is kept exactly when its full `(s, s)` box lies inside the
image: `0 ≤ ceil(x - s/2)` and `ceil(x - s/2) + s ≤ W`, and likewise in `y`. -/
def keptCoordb (H W s : ℕ) (c : ℚ × ℚ) : Bool :=
  decide (0 ≤ ⌈c.1 - (s : ℚ) / 2⌉ ∧ ⌈c.1 - (s : ℚ) / 2⌉ + s ≤ (W : ℤ) ∧
    0 ≤ ⌈c.2 - (s : ℚ) / 2⌉ ∧ ⌈c.2 - (s : ℚ) / 2⌉ + s ≤ (H : ℤ))

/-- The full-size stamp extracted at a kept coordinate. -/
def stampAt (img : ℕ → ℕ → ℚ) (s : ℕ) (c : ℚ × ℚ) : List (List ℚ) :=
  cutoutBlock img (⌈c.2 - (s : ℚ) / 2⌉).toNat ((⌈c.2 - (s : ℚ) / 2⌉).toNat + s)
    (⌈c.1 - (s : ℚ) / 2⌉).toNat ((⌈c.1 - (s : ℚ) / 2⌉).toNat + s)

/-! ### `get_radial_profile` (photometry.py lines 7-43) -/

/-- The integer radius bin of the pixel at column `x`, row `y`:
`np.sqrt((x - cx)**2 + (y - cy)**2).astype(int)`, i.e. the truncated square
root of the squared distance (shown below to equal the floor of the real
square root, since the radicand is nonnegative). -/
def rBin (cx cy : ℚ) (x y : ℕ) : ℕ :=
  Nat.sqrt ⌊((x : ℚ) - cx) ^ 2 + ((y : ℚ) - cy) ^ 2⌋₊

/-- All pixels of an `H × W` image in row-major (`ravel`) order, as
`(row, column)` pairs. -/
def pixels (H W : ℕ) : List (ℕ × ℕ) :=
  (List.range H).flatMap (fun y => (List.range W).map (fun x => (y, x)))

/-- The flattened radius-bin array `r.ravel()`. -/
def rList (H W : ℕ) (cx cy : ℚ) : List ℕ :=
  (pixels H W).map (fun p => rBin cx cy p.2 p.1)

/-- The flattened data array `data.ravel()`, in the same order. -/
def dList (img : ℕ → ℕ → ℚ) (H W : ℕ) : List ℚ :=
  (pixels H W).map (fun p => img p.1 p.2)

/-- The length of `np.bincount xs`: one more than the largest value, and 0
for an empty input. -/
def bincountLen (xs : List ℕ) : ℕ :=
  xs.foldr (fun a m => max (a + 1) m) 0

/-- Model of `np.bincount(xs)`: occurrence counts of `0, 1, …`. -/
def bincount (xs : List ℕ) : List ℕ :=
  (List.range (bincountLen xs)).map (fun b => xs.count b)

/-- Model of `np.bincount(xs, weights)`: per-bin sums of the weights. -/
def bincountW (xs : List ℕ) (w : List ℚ) : List ℚ :=
  (List.range (bincountLen xs)).map
    (fun b => (((xs.zip w).filter (fun q => q.1 = b)).map (fun q => q.2)).sum)

/-- The pixel values of the image lying in radius bin `b` (`data[r == b]`). -/
def ringVals (img : ℕ → ℕ → ℚ) (H W : ℕ) (cx cy : ℚ) (b : ℕ) : List ℚ :=
  ((pixels H W).filter (fun p => rBin cx cy p.2 p.1 = b)).map (fun p => img p.1 p.2)

/-- The number of pixels in radius bin `b`. -/
def ringCount (H W : ℕ) (cx cy : ℚ) (b : ℕ) : ℕ :=
  (pixels H W).countP (fun p => rBin cx cy p.2 p.1 = b)

/-- Population mean of a list of rationals. -/
def meanQ (xs : List ℚ) : ℚ := xs.sum / xs.length

/-- Population variance (`ddof = 0`), so that `np.std xs` is its square
root. -/
def popVar (xs : List ℚ) : ℚ :=
  (xs.map (fun v => (v - meanQ xs) ^ 2)).sum / xs.length

/-- The radius bins surviving the `nr > 0` mask of `get_radial_profile`
(when no bin is empty the code skips the mask; either way these are the
populated bins in ascending order). -/
def profileRadii (H W : ℕ) (cx cy : ℚ) : List ℕ :=
  let nrFull := bincount (rList H W cx cy)
  if nrFull.contains 0 then
    (List.range nrFull.length).filter (fun b => nrFull.getD b 0 ≠ 0)
  else List.range nrFull.length

/-- Embedding of `get_radial_profile`: the populated radii, the per-bin mean
flux `tbin / nr`, and the per-bin standard error
`np.std(data[r == i]) / np.sqrt(nr)`. -/
noncomputable def get_radial_profile (img : ℕ → ℕ → ℚ) (H W : ℕ)
    (center : ℚ × ℚ) : List ℕ × List ℚ × List ℝ :=
  let r := rList H W center.1 center.2
  let d := dList img H W
  let nrFull := bincount r
  let radii := profileRadii H W center.1 center.2
  let nr := if nrFull.contains 0 then radii.map (fun b => nrFull.getD b 0) else nrFull
  let tbin :=
    if nrFull.contains 0 then radii.map (fun b => (bincountW r d).getD b 0)
    else bincountW r d
  let radialMean := List.zipWith (fun (t : ℚ) (n : ℕ) => t / (n : ℚ)) tbin nr
  let stdDev := radii.map (fun b => Real.sqrt (popVar (ringVals img H W center.1 center.2 b)))
  let radialStdError := List.zipWith (fun (s : ℝ) (n : ℕ) => s / Real.sqrt (n : ℝ)) stdDev nr
  (radii, radialMean, radialStdError)

/-! ### `fit_background` (photometry.py lines 46-76) -/

/-- The quadratic sky model `a + b * x**2`. -/
def background_model (x a b : ℚ) : ℚ := a + b * x ^ 2

/-- Python slice `xs[start:stop]` (step 1): negative endpoints count from the
end, then both are clamped to `[0, len(xs)]`. -/
def pySlice {α : Type} (xs : List α) (start stop : ℤ) : List α :=
  let n : ℤ := xs.length
  let norm : ℤ → ℕ := fun i => if i < 0 then (max 0 (i + n)).toNat else (min i n).toNat
  (xs.take (norm stop)).drop (norm start)

/-- Embedding of `fit_background`.  The nonlinear least-squares solver
`scipy.optimize.curve_fit` is abstracted as the oracle `curvefit`, whose
`error` outcome models the `RuntimeError` raised on non-convergence.  The
returned boolean records whether the non-convergence warning was printed. -/
def fit_background (curvefit : List ℚ → List ℚ → Except Unit (ℚ × ℚ))
    (radii radial_profile : List ℚ) (fit_range : ℤ × ℤ) : List ℚ × Bool :=
  let xdata := pySlice radii fit_range.1 fit_range.2
  let ydata := pySlice radial_profile fit_range.1 fit_range.2
  match curvefit xdata ydata with
  | .ok (a, b) => (radii.map (fun x => background_model x a b), false)
  | .error _ => (List.replicate radii.length 0, true)

/-! ### `get_galaxy_pixel_coords` (stacking.py lines 28-69)

Lines of the region file are modelled as `List Char`; the Python string
operations (`strip`, `startswith`, `in`, `replace(pat, "")`, `split`) are
embedded below.  Python's `float` and astropy's sexagesimal `SkyCoord`
constructor are oracles returning `none` on the `(ValueError, TypeError)`
exceptions the code catches. -/

/-- Python `str.strip()`: remove whitespace from both ends. -/
def pyStrip (s : List Char) : List Char :=
  ((s.dropWhile Char.isWhitespace).reverse.dropWhile Char.isWhitespace).reverse

/-- Python substring test `pat in s`. -/
def containsSub (pat : List Char) : List Char → Bool
  | [] => pat.isEmpty
  | c :: cs => pat.isPrefixOf (c :: cs) || containsSub pat cs

/-- Worker for `pyRemove`, structurally recursive on a fuel argument that
starts at the length of the string. -/
def removePat (pat : List Char) : ℕ → List Char → List Char
  | _, [] => []
  | 0, s => s
  | fuel + 1, c :: cs =>
    if pat ≠ [] ∧ pat.isPrefixOf (c :: cs) then
      removePat pat fuel ((c :: cs).drop pat.length)
    else c :: removePat pat fuel cs

/-- Python `s.replace(pat, "")`: drop every (left-to-right, non-overlapping)
occurrence of `pat`. -/
def pyRemove (s pat : List Char) : List Char := removePat pat s.length s

/-- Python `s.split(sep)` for a one-character separator: splits at every
occurrence, keeping empty parts. -/
def pySplit (sep : Char) (s : List Char) : List (List Char) :=
  s.foldr
    (fun c acc =>
      if c = sep then [] :: acc
      else
        match acc with
        | [] => [[c]]
        | h :: t => (c :: h) :: t)
    [[]]

/-- Outcome of processing one region-file line: dropped without comment,
dropped with the "Could not parse" warning, or contributing one
`(ra, dec)` pair. -/
inductive LineResult
  | skipped
  | warned
  | coord (c : ℚ × ℚ)
deriving DecidableEq

/-- Processing of a single line of the region file, following the loop body
of `get_galaxy_pixel_coords`: keep lines containing `point` that are not
comments, strip `point(` and `)`, split on `,`, then parse the first two
components (sexagesimally via `skycoord` when either contains `:`, as plain
floats via `pyFloat` otherwise); a parse failure yields `warned`. -/
def processLine (pyFloat : List Char → Option ℚ)
    (skycoord : List Char → List Char → Option (ℚ × ℚ)) (rawLine : List Char) :
    LineResult :=
  let line := pyStrip rawLine
  if containsSub "point".data line && !("#".data.isPrefixOf line) then
    let coordsStr := pyRemove (pyRemove line "point(".data) ")".data
    match pySplit ',' coordsStr with
    | p0 :: p1 :: _ =>
      let raStr := pyStrip p0
      let decStr := pyStrip p1
      if containsSub ":".data raStr || containsSub ":".data decStr then
        match skycoord raStr decStr with
        | some c => .coord c
        | none => .warned
      else
        match pyFloat raStr, pyFloat decStr with
        | some ra, some dec => .coord (ra, dec)
        | _, _ => .warned
    | _ => .skipped
  else .skipped

/-- The world coordinates collected from the region file. -/
def worldCoords (pyFloat : List Char → Option ℚ)
    (skycoord : List Char → List Char → Option (ℚ × ℚ))
    (lines : List (List Char)) : List (ℚ × ℚ) :=
  lines.filterMap
    (fun l =>
      match processLine pyFloat skycoord l with
      | .coord c => some c
      | _ => none)

/-- Embedding of `get_galaxy_pixel_coords`: parse the region file, raise the
empty-catalog `ValueError` when nothing parsed, otherwise convert world to
1-based pixel coordinates through the WCS oracle `world2pix` and subtract 1. -/
def get_galaxy_pixel_coords (pyFloat : List Char → Option ℚ)
    (skycoord : List Char → List Char → Option (ℚ × ℚ))
    (world2pix : ℚ × ℚ → ℚ × ℚ) (lines : List (List Char)) :
    Except Unit (List (ℚ × ℚ)) :=
  let world := worldCoords pyFloat skycoord lines
  if world = [] then .error ()
  else .ok (world.map (fun c => ((world2pix c).1 - 1, (world2pix c).2 - 1)))

/-! ### `get_pixel_scale` (photometry.py lines 79-89) -/

/-- Embedding of `get_pixel_scale`.  The FITS header is a partial key-value
map; `error` models the `KeyError` that escapes when the `CDELT1` fallback is
also missing.  The `try` block raises `KeyError` as soon as either `CD1_1` or
`CD1_2` is absent, which sends the code to the fallback. -/
noncomputable def get_pixel_scale (header : String → Option ℚ) : Except Unit ℝ :=
  match header "CD1_1", header "CD1_2" with
  | some a, some b => .ok (Real.sqrt ((a : ℝ) ^ 2 + (b : ℝ) ^ 2) * 3600)
  | _, _ =>
    match header "CDELT1" with
    | some c => .ok (|(c : ℝ)| * 3600)
    | none => .error ()

/-! ### Concrete inputs used by the witness theorems -/

/-- A header holding the CD matrix entries of the repository's own test
(`CD1_1 = -0.0001`, `CD1_2 = 0.0`). -/
def demoHeader : String → Option ℚ := fun k =>
  if k = "CD1_1" then some (-1 / 10000)
  else if k = "CD1_2" then some 0 else none

/-- A header with only `CD1_1` and `CDELT1` (incomplete CD matrix). -/
def demoHeaderOneCd : String → Option ℚ := fun k =>
  if k = "CD1_1" then some 1
  else if k = "CDELT1" then some (2 / 10000) else none

/-- A curve-fit oracle that always converges to `a = 5`, `b = 1/10`. -/
def demoCurvefit : List ℚ → List ℚ → Except Unit (ℚ × ℚ) :=
  fun _ _ => .ok (5, 1 / 10)

/-- A float-parsing oracle accepting only the literal `1.5`. -/
def demoFloat : List Char → Option ℚ := fun s =>
  if s = "1.5".data then some (3 / 2) else none

/-- A sexagesimal oracle that always fails to parse. -/
def demoSkycoord : List Char → List Char → Option (ℚ × ℚ) := fun _ _ => none

/-- A trivial world-to-pixel transform. -/
def demoW2P : ℚ × ℚ → ℚ × ℚ := fun c => c

/-- Five constant stamps with per-pixel values `[10, 20, 30, 15, 25]`, the
worked example of the spec's testable properties. -/
def fiveStamps : List (ℕ → ℕ → ℚ) :=
  [fun _ _ => 10, fun _ _ => 20, fun _ _ => 30, fun _ _ => 15, fun _ _ => 25]

/-! ## Theorems -/

/-- Unfolding equation for `fit_background`. -/
theorem fit_background_eq (cf : List ℚ → List ℚ → Except Unit (ℚ × ℚ))
    (radii radial_profile : List ℚ) (fit_range : ℤ × ℤ) :
    fit_background cf radii radial_profile fit_range =
      match cf (pySlice radii fit_range.1 fit_range.2)
          (pySlice radial_profile fit_range.1 fit_range.2) with
      | .ok (a, b) => (radii.map (fun x => background_model x a b), false)
      | .error _ => (List.replicate radii.length 0, true) := rfl

/-- Claim C9: `get_pixel_scale` returns `sqrt(CD1_1^2 + CD1_2^2) * 3600` when both
CD matrix keys are present, `abs(CDELT1) * 3600` when they are absent, and
fails with the missing-scale-metadata error when neither representation is
present. -/
theorem C9_get_pixel_scale (header : String → Option ℚ) :
    (∀ a b : ℚ, header "CD1_1" = some a → header "CD1_2" = some b →
      get_pixel_scale header = .ok (Real.sqrt ((a : ℝ) ^ 2 + (b : ℝ) ^ 2) * 3600)) ∧
    (header "CD1_1" = none → header "CD1_2" = none →
      ∀ c : ℚ, header "CDELT1" = some c →
        get_pixel_scale header = .ok (|(c : ℝ)| * 3600)) ∧
    ((header "CD1_1" = none ∨ header "CD1_2" = none) → header "CDELT1" = none →
      get_pixel_scale header = .error ()) := by
  refine ⟨fun a b ha hb => ?_, fun h1 h2 c hc => ?_, fun hcd hc => ?_⟩
  · simp [get_pixel_scale, ha, hb]
  · simp [get_pixel_scale, h1, h2, hc]
  · rcases hcd with h | h
    · simp [get_pixel_scale, h, hc]
    · simp [get_pixel_scale, h, hc]

/-- Witness for C9 at the repository's own test header
(`CD1_1 = -0.0001`, `CD1_2 = 0`). -/
theorem C9_witness :
    demoHeader "CD1_1" = some (-1 / 10000) ∧ demoHeader "CD1_2" = some 0 ∧
    get_pixel_scale demoHeader =
      .ok (Real.sqrt (((-1 / 10000 : ℚ) : ℝ) ^ 2 + ((0 : ℚ) : ℝ) ^ 2) * 3600) :=
  ⟨by simp [demoHeader], by simp [demoHeader],
    (C9_get_pixel_scale demoHeader).1 (-1 / 10000) 0 (by simp [demoHeader])
      (by simp [demoHeader])⟩

/-- Claim C10: with exactly one CD matrix key present, `get_pixel_scale` silently
falls back to `abs(CDELT1) * 3600` when `CDELT1` is present, and only when
`CDELT1` is also absent does the missing-key error reach the caller. -/
theorem C10_one_cd_key_fallback (header : String → Option ℚ) (a : ℚ)
    (hone : (header "CD1_1" = some a ∧ header "CD1_2" = none) ∨
      (header "CD1_1" = none ∧ header "CD1_2" = some a)) :
    (∀ c : ℚ, header "CDELT1" = some c →
      get_pixel_scale header = .ok (|(c : ℝ)| * 3600)) ∧
    (header "CDELT1" = none → get_pixel_scale header = .error ()) := by
  rcases hone with ⟨h1, h2⟩ | ⟨h1, h2⟩ <;>
    exact ⟨fun c hc => by simp [get_pixel_scale, h1, h2, hc],
      fun hc => by simp [get_pixel_scale, h1, h2, hc]⟩

/-- Witness for C10 at a header holding only `CD1_1` and `CDELT1`. -/
theorem C10_witness :
    (demoHeaderOneCd "CD1_1" = some 1 ∧ demoHeaderOneCd "CD1_2" = none) ∧
    demoHeaderOneCd "CDELT1" = some (2 / 10000) ∧
    get_pixel_scale demoHeaderOneCd = .ok (|((2 / 10000 : ℚ) : ℝ)| * 3600) :=
  ⟨⟨by simp [demoHeaderOneCd], by simp [demoHeaderOneCd]⟩,
    by simp [demoHeaderOneCd],
    (C10_one_cd_key_fallback demoHeaderOneCd 1
      (Or.inl ⟨by simp [demoHeaderOneCd], by simp [demoHeaderOneCd]⟩)).1
      (2 / 10000) (by simp [demoHeaderOneCd])⟩

/-- Claim C7: `fit_background` fits `f(r) = a + b r^2` on the Python slice
`radii[start:stop]` / `profile[start:stop]` and evaluates the model at every
radius of the full input; on non-convergence it returns an all-zero array of
the same length together with the warning flag, and it is a total function
(the non-convergence exception never propagates). -/
theorem C7_fit_background (cf : List ℚ → List ℚ → Except Unit (ℚ × ℚ))
    (radii radial_profile : List ℚ) (fit_range : ℤ × ℤ) :
    (fit_background cf radii radial_profile fit_range).1.length = radii.length ∧
    (∀ a b : ℚ,
      cf (pySlice radii fit_range.1 fit_range.2)
          (pySlice radial_profile fit_range.1 fit_range.2) = .ok (a, b) →
      fit_background cf radii radial_profile fit_range =
        (radii.map (fun r => a + b * r ^ 2), false)) ∧
    (cf (pySlice radii fit_range.1 fit_range.2)
        (pySlice radial_profile fit_range.1 fit_range.2) = .error () →
      fit_background cf radii radial_profile fit_range =
        (List.replicate radii.length 0, true)) := by
  refine ⟨?_, fun a b h => ?_, fun h => ?_⟩
  · rw [fit_background_eq]
    cases hcf : cf (pySlice radii fit_range.1 fit_range.2)
        (pySlice radial_profile fit_range.1 fit_range.2) with
    | error e => simp
    | ok p => cases p with | mk a b => simp
  · rw [fit_background_eq, h]
    simp [background_model]
  · rw [fit_background_eq, h]

/-- Witness for C7: a converging oracle on a 4-point profile with the
negative-end fit range `[0, -1]` used by the repository's tests. -/
theorem C7_witness :
    demoCurvefit (pySlice [0, 1, 2, 3] 0 (-1)) (pySlice [5, 51 / 10, 54 / 10, 59 / 10] 0 (-1)) =
      .ok (5, 1 / 10) ∧
    fit_background demoCurvefit [0, 1, 2, 3] [5, 51 / 10, 54 / 10, 59 / 10] (0, -1) =
      (([0, 1, 2, 3] : List ℚ).map (fun r => 5 + 1 / 10 * r ^ 2), false) :=
  ⟨rfl,
    (C7_fit_background demoCurvefit [0, 1, 2, 3] [5, 51 / 10, 54 / 10, 59 / 10]
      (0, -1)).2.1 5 (1 / 10) rfl⟩

/-- The sort used throughout is a permutation of its input. -/
theorem sortQ_perm (xs : List ℚ) : (sortQ xs).Perm xs :=
  List.perm_insertionSort _ _

/-- Sorting preserves length. -/
theorem sortQ_length (xs : List ℚ) : (sortQ xs).length = xs.length :=
  (sortQ_perm xs).length_eq

/-- Sorting preserves the sum. -/
theorem sortQ_sum (xs : List ℚ) : (sortQ xs).sum = xs.sum :=
  (sortQ_perm xs).sum_eq

/-- The pixel stack has one value per stamp. -/
theorem pixelStack_length (stamps : List (ℕ → ℕ → ℚ)) (i j : ℕ) :
    (pixelStack stamps i j).length = stamps.length :=
  List.length_map _ _

/-- For a nonnegative trim fraction, the scipy cut is
`floor(trim_fraction * N)`. -/
theorem trimCut_eq_floor (n : ℕ) (p : ℚ) (hp : 0 ≤ p) :
    trimCut n p = (⌊p * n⌋).toNat := by
  unfold trimCut pyInt
  rw [if_neg (not_lt.2 (by positivity))]

/-- With no trimming the scipy cut is zero. -/
theorem trimCut_zero (n : ℕ) : trimCut n 0 = 0 := by
  unfold trimCut pyInt
  norm_num

/-- For `trim_fraction < 1/2` fewer than half the values are cut. -/
theorem trimCut_twice_lt (n : ℕ) (p : ℚ) (hp0 : 0 ≤ p) (hp1 : p < 1 / 2)
    (hn : n ≠ 0) : 2 * trimCut n p < n := by
  rw [trimCut_eq_floor n p hp0]
  have hnq : (0 : ℚ) < n := by
    exact_mod_cast Nat.pos_of_ne_zero hn
  have h1 : (⌊p * n⌋ : ℚ) ≤ p * n := Int.floor_le _
  have h2 : p * (n : ℚ) < (n : ℚ) / 2 := by
    calc p * (n : ℚ) < (1 / 2) * n := mul_lt_mul_of_pos_right hp1 hnq
    _ = (n : ℚ) / 2 := by ring
  have h0 : 0 ≤ ⌊p * (n : ℚ)⌋ := Int.floor_nonneg.2 (by positivity)
  have hz : 2 * ⌊p * (n : ℚ)⌋ < (n : ℤ) := by
    exact_mod_cast show (2 * ⌊p * (n : ℚ)⌋ : ℚ) < n by linarith
  omega

/-- On a nonempty stack with a valid trim fraction, `stack_images` succeeds
and returns the trimmed-mean image and the MAD error map. -/
theorem stack_images_ok (stamps : List (ℕ → ℕ → ℚ)) (p : ℚ) (hp0 : 0 ≤ p)
    (hp1 : p < 1 / 2) (hn : stamps.length ≠ 0) :
    stack_images stamps p = .ok (stackedMap stamps p, errMap stamps) := by
  have hcut := trimCut_twice_lt stamps.length p hp0 hp1 hn
  simp only [stack_images]
  rw [if_neg hn, if_neg (by omega)]

/-- Whatever `stack_images` returns through `ok` is the pair of the
trimmed-mean image and the MAD error map. -/
theorem stack_images_ok_inv (stamps : List (ℕ → ℕ → ℚ)) (p : ℚ)
    (st : ℕ → ℕ → ℚ) (er : ℕ → ℕ → Option ℝ)
    (hok : stack_images stamps p = .ok (st, er)) :
    st = stackedMap stamps p ∧ er = errMap stamps := by
  simp only [stack_images] at hok
  by_cases hn : stamps.length = 0
  · rw [if_pos hn] at hok
    exact absurd hok (by simp)
  · rw [if_neg hn] at hok
    split at hok
    · exact absurd hok (by simp)
    · simp only [Except.ok.injEq, Prod.mk.injEq] at hok
      exact ⟨hok.1.symm, hok.2.symm⟩

/-- Claim C1: `stack_images` fails with the empty-stack error exactly when the
stamp count is zero; otherwise, for `trim_fraction` in `[0, 1/2)`, it
succeeds and every stacked pixel is the spec's trimmed mean (sort, remove
`floor(trim_fraction * N)` values from each end, average the rest) of the
per-pixel stack, which at `trim_fraction = 0` is the plain arithmetic
mean. -/
theorem C1_stack_images_trimmed_mean (stamps : List (ℕ → ℕ → ℚ)) (p : ℚ)
    (hp0 : 0 ≤ p) (hp1 : p < 1 / 2) :
    (stack_images stamps p = .error .emptyStack ↔ stamps.length = 0) ∧
    (stamps.length ≠ 0 →
      stack_images stamps p = .ok (stackedMap stamps p, errMap stamps)) ∧
    (∀ i j, stackedMap stamps p i j =
      specTrimmedMean (pixelStack stamps i j) (⌊p * stamps.length⌋).toNat) ∧
    (p = 0 → ∀ i j, stackedMap stamps p i j =
      (pixelStack stamps i j).sum / (pixelStack stamps i j).length) := by
  have hsortlen : ∀ i j,
      (sortQ (pixelStack stamps i j)).length = stamps.length := fun i j => by
    rw [sortQ_length, pixelStack_length]
  refine ⟨⟨fun herr => ?_, fun h0 => ?_⟩, fun hn => stack_images_ok _ _ hp0 hp1 hn,
    fun i j => ?_, fun hzero i j => ?_⟩
  · by_contra hn
    rw [stack_images_ok stamps p hp0 hp1 hn] at herr
    exact absurd herr (by simp)
  · simp only [stack_images]
    rw [if_pos h0]
  · simp only [stackedMap, trimmedMeanVal, specTrimmedMean]
    rw [hsortlen i j, trimCut_eq_floor _ _ hp0,
      show stamps.length - (⌊p * stamps.length⌋).toNat - (⌊p * stamps.length⌋).toNat
        = stamps.length - 2 * (⌊p * stamps.length⌋).toNat from by omega]
  · subst hzero
    simp only [stackedMap, trimmedMeanVal, trimCut_zero, Nat.sub_zero,
      List.drop_zero]
    rw [show stamps.length = (sortQ (pixelStack stamps i j)).length from
        (hsortlen i j).symm,
      List.take_length, sortQ_sum, sortQ_length]

/-- Witness for C1 at the spec's worked example: five stamps with pixel
values `[10, 20, 30, 15, 25]` and `trim_fraction = 1/5`. -/
theorem C1_witness :
    (0 : ℚ) ≤ 1 / 5 ∧ (1 / 5 : ℚ) < 1 / 2 ∧
    ((stack_images fiveStamps (1 / 5) = .error .emptyStack ↔
        fiveStamps.length = 0) ∧
      (fiveStamps.length ≠ 0 →
        stack_images fiveStamps (1 / 5) =
          .ok (stackedMap fiveStamps (1 / 5), errMap fiveStamps)) ∧
      (∀ i j, stackedMap fiveStamps (1 / 5) i j =
        specTrimmedMean (pixelStack fiveStamps i j)
          (⌊(1 / 5 : ℚ) * fiveStamps.length⌋).toNat) ∧
      ((1 / 5 : ℚ) = 0 → ∀ i j, stackedMap fiveStamps (1 / 5) i j =
        (pixelStack fiveStamps i j).sum / (pixelStack fiveStamps i j).length)) :=
  ⟨by norm_num, by norm_num,
    C1_stack_images_trimmed_mean fiveStamps (1 / 5) (by norm_num) (by norm_num)⟩

/-- Claim C2: for `N ≥ 2` stamps, every pixel of the error map returned by
`stack_images` is `1.4826 * MAD(stamps[:, i, j]) / sqrt(N - 1)` with `N` the
full untrimmed stamp count, independently of the trim fraction. -/
theorem C2_error_map_mad (stamps : List (ℕ → ℕ → ℚ)) (hN : 2 ≤ stamps.length)
    (p q : ℚ) (stp : ℕ → ℕ → ℚ) (erp : ℕ → ℕ → Option ℝ) (stq : ℕ → ℕ → ℚ)
    (erq : ℕ → ℕ → Option ℝ) (hp : stack_images stamps p = .ok (stp, erp))
    (hq : stack_images stamps q = .ok (stq, erq)) (i j : ℕ) :
    erp i j = some (((14826 : ℝ) / 10000) * (madQ (pixelStack stamps i j) : ℝ) /
      Real.sqrt ((stamps.length : ℝ) - 1)) ∧ erp i j = erq i j := by
  obtain ⟨-, herp⟩ := stack_images_ok_inv stamps p stp erp hp
  obtain ⟨-, herq⟩ := stack_images_ok_inv stamps q stq erq hq
  subst herp
  subst herq
  refine ⟨?_, rfl⟩
  have hpos : (0 : ℝ) < (stamps.length : ℝ) - 1 := by
    have : (2 : ℝ) ≤ (stamps.length : ℝ) := by exact_mod_cast hN
    linarith
  have hsq : Real.sqrt ((stamps.length : ℝ) - 1) ≠ 0 :=
    ne_of_gt (Real.sqrt_pos.2 hpos)
  simp only [errMap, errPixel, fdiv, if_neg hsq]
  congr 1
  push_cast
  ring

/-- Witness for C2: two constant stamps, trim fractions `0` and `1/5`. -/
theorem C2_witness :
    2 ≤ twoStamps.length ∧
    (errMap twoStamps 0 0 =
      some (((14826 : ℝ) / 10000) * (madQ (pixelStack twoStamps 0 0) : ℝ) /
        Real.sqrt ((twoStamps.length : ℝ) - 1)) ∧
      errMap twoStamps 0 0 = errMap twoStamps 0 0) :=
  ⟨by decide,
    C2_error_map_mad twoStamps (by decide) 0 (1 / 5) _ _ _ _
      (stack_images_ok twoStamps 0 (by norm_num) (by norm_num) (by decide))
      (stack_images_ok twoStamps (1 / 5) (by norm_num) (by norm_num) (by decide))
      0 0⟩

/-- The MAD of a single value is zero. -/
theorem madQ_singleton (v : ℚ) : madQ [v] = 0 := by
  simp [madQ, npMedian, sortQ, List.insertionSort, List.orderedInsert]

/-- Counterexample to C3 as stated: stacking the single stamp `oneStamp`
succeeds, but the emitted error map is the non-finite value `0 / sqrt(0)`
(`none` in this model, NaN in numpy) at pixel `(0, 0)`, not zero. -/
theorem C3_counterexample :
    stack_images oneStamp (1 / 10) =
      .ok (stackedMap oneStamp (1 / 10), errMap oneStamp) ∧
    errMap oneStamp 0 0 = none ∧ errMap oneStamp 0 0 ≠ some 0 := by
  have h1 : errMap oneStamp 0 0 = none := by
    have hs : Real.sqrt ((oneStamp.length : ℝ) - 1) = 0 := by
      norm_num [oneStamp, Real.sqrt_zero]
    simp [errMap, errPixel, fdiv, hs]
  exact ⟨stack_images_ok oneStamp (1 / 10) (by norm_num) (by norm_num) (by decide),
    h1, by rw [h1]; simp⟩

/-- Claim C3 amended: for a single-stamp stack (`N = 1`), `stack_images` succeeds
but its error map is undefined (NaN) at every pixel — the MAD is zero and
the divisor `sqrt(N - 1)` is zero, so the code emits `0 / 0`, not zero. -/
theorem C3_single_stamp_error_undefined (stamps : List (ℕ → ℕ → ℚ)) (p : ℚ)
    (st : ℕ → ℕ → ℚ) (er : ℕ → ℕ → Option ℝ) (h1 : stamps.length = 1)
    (hok : stack_images stamps p = .ok (st, er)) :
    ∀ i j, madQ (pixelStack stamps i j) = 0 ∧ er i j = none := by
  obtain ⟨-, her⟩ := stack_images_ok_inv stamps p st er hok
  subst her
  intro i j
  obtain ⟨s, rfl⟩ := List.length_eq_one.1 h1
  have hmad : madQ (pixelStack [s] i j) = 0 := by
    simp only [pixelStack, List.map_cons, List.map_nil]
    exact madQ_singleton (s i j)
  refine ⟨hmad, ?_⟩
  have hs : Real.sqrt ((([s] : List (ℕ → ℕ → ℚ)).length : ℝ) - 1) = 0 := by
    norm_num [Real.sqrt_zero]
  simp [errMap, errPixel, fdiv, hs]

/-- Witness for the amended C3 at the concrete one-stamp stack. -/
theorem C3_witness :
    oneStamp.length = 1 ∧
    (madQ (pixelStack oneStamp 0 0) = 0 ∧ errMap oneStamp 0 0 = none) :=
  ⟨rfl,
    C3_single_stamp_error_undefined oneStamp (1 / 10) _ _ rfl
      (stack_images_ok oneStamp (1 / 10) (by norm_num) (by norm_num) (by decide))
      0 0⟩

/-- Claim C8: `get_galaxy_pixel_coords` raises the empty-catalog failure exactly
when zero valid coordinate entries remain after parsing; a malformed line
(parse failure, reported with a warning) is skipped without affecting the
rest of the run; and an empty or all-comment region file raises the
empty-catalog failure. -/
theorem C8_get_galaxy_pixel_coords (f : List Char → Option ℚ)
    (sx : List Char → List Char → Option (ℚ × ℚ)) (w : ℚ × ℚ → ℚ × ℚ)
    (lines : List (List Char)) :
    (get_galaxy_pixel_coords f sx w lines = .error () ↔
      worldCoords f sx lines = []) ∧
    (∀ l rest, processLine f sx l = .warned →
      get_galaxy_pixel_coords f sx w (l :: rest) =
        get_galaxy_pixel_coords f sx w rest) ∧
    get_galaxy_pixel_coords f sx w [] = .error () ∧
    ((∀ l ∈ lines, "#".data.isPrefixOf (pyStrip l) = true) →
      get_galaxy_pixel_coords f sx w lines = .error ()) := by
  have herr : ∀ ls, get_galaxy_pixel_coords f sx w ls = .error () ↔
      worldCoords f sx ls = [] := by
    intro ls
    unfold get_galaxy_pixel_coords
    by_cases h : worldCoords f sx ls = [] <;> simp [h]
  refine ⟨herr lines, fun l rest hw => ?_, (herr []).2 rfl, fun hall => ?_⟩
  · have hcons : worldCoords f sx (l :: rest) = worldCoords f sx rest := by
      simp [worldCoords, List.filterMap_cons, hw]
    unfold get_galaxy_pixel_coords
    rw [hcons]
  · refine (herr lines).2 ?_
    simp only [worldCoords, List.filterMap_eq_nil_iff]
    intro l hl
    have h := hall l hl
    simp [processLine, h]

/-- Witness for C8: a region file whose first line fails float parsing (and
is skipped with a warning) followed by a comment line. -/
theorem C8_witness :
    processLine demoFloat demoSkycoord "point(bad,1.5)".data = .warned ∧
    get_galaxy_pixel_coords demoFloat demoSkycoord demoW2P
        ("point(bad,1.5)".data :: ["# comment".data]) =
      get_galaxy_pixel_coords demoFloat demoSkycoord demoW2P ["# comment".data] :=
  ⟨by decide,
    (C8_get_galaxy_pixel_coords demoFloat demoSkycoord demoW2P
      ("point(bad,1.5)".data :: ["# comment".data])).2.1
      "point(bad,1.5)".data ["# comment".data] (by decide)⟩

/-- The upper cutout edge is the lower edge shifted by the stamp size:
`ceil(x + s/2) = ceil(x - s/2) + s`. -/
theorem ceil_half_add (x : ℚ) (s : ℕ) :
    ⌈x + (s : ℚ) / 2⌉ = ⌈x - (s : ℚ) / 2⌉ + s := by
  rw [show x + (s : ℚ) / 2 = (x - (s : ℚ) / 2) + (s : ℕ) from by ring,
    Int.ceil_add_nat]

/-- Unfolding equation for `cutout2D`, with both edges expressed through the
lower edge. -/
theorem cutout2D_eq (img : ℕ → ℕ → ℚ) (H W : ℕ) (pos : ℚ × ℚ) (s : ℕ) :
    cutout2D img H W pos s =
      if ⌈pos.1 - (s : ℚ) / 2⌉ + (s : ℤ) ≤ 0 ∨ (W : ℤ) ≤ ⌈pos.1 - (s : ℚ) / 2⌉ ∨
          ⌈pos.2 - (s : ℚ) / 2⌉ + (s : ℤ) ≤ 0 ∨ (H : ℤ) ≤ ⌈pos.2 - (s : ℚ) / 2⌉ then
        .error ()
      else
        .ok (cutoutBlock img (max 0 ⌈pos.2 - (s : ℚ) / 2⌉).toNat
          (min (H : ℤ) (⌈pos.2 - (s : ℚ) / 2⌉ + s)).toNat
          (max 0 ⌈pos.1 - (s : ℚ) / 2⌉).toNat
          (min (W : ℤ) (⌈pos.1 - (s : ℚ) / 2⌉ + s)).toNat) := by
  unfold cutout2D
  rw [ceil_half_add pos.1 s, ceil_half_add pos.2 s]

/-- Shape of a cutout block: `rhi - rlo` rows, and `chi - clo` columns as
soon as there is at least one row. -/
theorem shape2_cutoutBlock (img : ℕ → ℕ → ℚ) (rlo rhi clo chi : ℕ) :
    shape2 (cutoutBlock img rlo rhi clo chi) =
      (rhi - rlo, if rhi - rlo = 0 then 0 else chi - clo) := by
  unfold shape2 cutoutBlock
  rcases h : rhi - rlo with - | k
  · simp [List.range_zero, h]
  · simp only [h, List.range_succ_eq_map, List.map_cons, List.headD_cons,
      List.length_cons, List.length_map, List.length_range]
    simp

/-- At a kept coordinate the cutout succeeds with the full `(s, s)` stamp. -/
theorem cutout2D_kept (img : ℕ → ℕ → ℚ) (H W : ℕ) (pos : ℚ × ℚ) (s : ℕ)
    (hs : 0 < s) (hk : keptCoordb H W s pos = true) :
    cutout2D img H W pos s = .ok (stampAt img s pos) ∧
    shape2 (stampAt img s pos) = (s, s) := by
  obtain ⟨hx0, hxW, hy0, hyH⟩ := of_decide_eq_true hk
  constructor
  · rw [cutout2D_eq, if_neg (by push_neg; omega)]
    have e1 : (max 0 ⌈pos.2 - (s : ℚ) / 2⌉).toNat = ⌈pos.2 - (s : ℚ) / 2⌉.toNat := by
      omega
    have e2 : (min (H : ℤ) (⌈pos.2 - (s : ℚ) / 2⌉ + s)).toNat =
        ⌈pos.2 - (s : ℚ) / 2⌉.toNat + s := by omega
    have e3 : (max 0 ⌈pos.1 - (s : ℚ) / 2⌉).toNat = ⌈pos.1 - (s : ℚ) / 2⌉.toNat := by
      omega
    have e4 : (min (W : ℤ) (⌈pos.1 - (s : ℚ) / 2⌉ + s)).toNat =
        ⌈pos.1 - (s : ℚ) / 2⌉.toNat + s := by omega
    rw [e1, e2, e3, e4]
    rfl
  · unfold stampAt
    rw [shape2_cutoutBlock]
    simp only [Nat.add_sub_cancel_left]
    rw [if_neg (by omega)]

/-- At a rejected coordinate the cutout either raises (complete
non-overlap) or returns a trimmed block that is not `(s, s)`. -/
theorem cutout2D_not_kept (img : ℕ → ℕ → ℚ) (H W : ℕ) (pos : ℚ × ℚ) (s : ℕ)
    (hs : 0 < s) (hk : keptCoordb H W s pos = false) :
    ∀ blk, cutout2D img H W pos s = .ok blk → shape2 blk ≠ (s, s) := by
  intro blk hok hshape
  have hk' := of_decide_eq_false hk
  rw [cutout2D_eq] at hok
  split at hok
  · exact absurd hok (by simp)
  · rename_i hcond
    push_neg at hcond
    simp only [Except.ok.injEq] at hok
    subst hok
    rw [shape2_cutoutBlock] at hshape
    simp only [Prod.mk.injEq] at hshape
    obtain ⟨hrow, hcol⟩ := hshape
    rw [if_neg (by omega)] at hcol
    exact hk' ⟨by omega, by omega, by omega, by omega⟩

/-- Function `create_stamps` keeps exactly the kept coordinates, each contributing
its full-size stamp, in order. -/
theorem create_stamps_eq (img : ℕ → ℕ → ℚ) (H W : ℕ)
    (coords : List (ℚ × ℚ)) (s : ℕ) (hs : 0 < s) :
    create_stamps img H W coords s =
      (coords.filter (keptCoordb H W s)).map (stampAt img s) := by
  induction coords with
  | nil => rfl
  | cons c cs ih =>
    show (match cutout2D img H W c s with
      | .error _ => create_stamps img H W cs s
      | .ok blk =>
        if shape2 blk = (s, s) then blk :: create_stamps img H W cs s
        else create_stamps img H W cs s) = _
    rcases hk : keptCoordb H W s c
    · have hrej := cutout2D_not_kept img H W c s hs hk
      rw [List.filter_cons_of_neg (by simp [hk])]
      cases hcut : cutout2D img H W c s with
      | error e => simp only [hcut]; exact ih
      | ok blk =>
        simp only [hcut]
        rw [if_neg (hrej blk hcut)]
        exact ih
    · obtain ⟨hcut, hshape⟩ := cutout2D_kept img H W c s hs hk
      rw [List.filter_cons_of_pos (by simp [hk])]
      simp only [hcut]
      rw [if_pos hshape, ih, List.map_cons]

/-- Claim C4: for a positive stamp size, `create_stamps` returns exactly one
`(s, s)` stamp per coordinate whose full box lies inside the image,
silently discards (without raising) every coordinate whose cutout leaves
the bounds or comes back trimmed, returns the empty list normally when
nothing survives, and any coordinate at least `s/2` away from every edge is
kept. -/
theorem C4_create_stamps (img : ℕ → ℕ → ℚ) (H W : ℕ)
    (coords : List (ℚ × ℚ)) (s : ℕ) (hs : 0 < s) :
    create_stamps img H W coords s =
      (coords.filter (keptCoordb H W s)).map (stampAt img s) ∧
    (∀ blk ∈ create_stamps img H W coords s, shape2 blk = (s, s)) ∧
    (create_stamps img H W coords s).length = coords.countP (keptCoordb H W s) ∧
    (coords.filter (keptCoordb H W s) = [] →
      create_stamps img H W coords s = []) ∧
    (∀ c : ℚ × ℚ, (s : ℚ) / 2 ≤ c.1 → c.1 ≤ (W : ℚ) - (s : ℚ) / 2 →
      (s : ℚ) / 2 ≤ c.2 → c.2 ≤ (H : ℚ) - (s : ℚ) / 2 →
      keptCoordb H W s c = true) := by
  have heq := create_stamps_eq img H W coords s hs
  refine ⟨heq, fun blk hblk => ?_, ?_, fun hnil => ?_, fun c h1 h2 h3 h4 => ?_⟩
  · rw [heq] at hblk
    obtain ⟨c, hc, rfl⟩ := List.mem_map.1 hblk
    exact (cutout2D_kept img H W c s hs (List.of_mem_filter hc)).2
  · rw [heq, List.length_map, (List.countP_eq_length_filter _ _).symm]
  · rw [heq, hnil, List.map_nil]
  · have hx0 : 0 ≤ ⌈c.1 - (s : ℚ) / 2⌉ := Int.ceil_nonneg (by linarith)
    have hy0 : 0 ≤ ⌈c.2 - (s : ℚ) / 2⌉ := Int.ceil_nonneg (by linarith)
    have hxW : ⌈c.1 - (s : ℚ) / 2⌉ ≤ (W : ℤ) - s :=
      Int.ceil_le.2 (by push_cast; linarith)
    have hyH : ⌈c.2 - (s : ℚ) / 2⌉ ≤ (H : ℤ) - s :=
      Int.ceil_le.2 (by push_cast; linarith)
    exact decide_eq_true ⟨hx0, by omega, hy0, by omega⟩

/-- Witness for C4: a `10 × 10` image, stamp size 3, one interior and one
corner coordinate. -/
theorem C4_witness :
    0 < 3 ∧
    (create_stamps (fun _ _ => (1 : ℚ)) 10 10 [(5, 5), (0, 0)] 3 =
      (([(5, 5), (0, 0)] : List (ℚ × ℚ)).filter (keptCoordb 10 10 3)).map
        (stampAt (fun _ _ => (1 : ℚ)) 3) ∧
      (∀ blk ∈ create_stamps (fun _ _ => (1 : ℚ)) 10 10 [(5, 5), (0, 0)] 3,
        shape2 blk = (3, 3)) ∧
      (create_stamps (fun _ _ => (1 : ℚ)) 10 10 [(5, 5), (0, 0)] 3).length =
        ([(5, 5), (0, 0)] : List (ℚ × ℚ)).countP (keptCoordb 10 10 3) ∧
      (([(5, 5), (0, 0)] : List (ℚ × ℚ)).filter (keptCoordb 10 10 3) = [] →
        create_stamps (fun _ _ => (1 : ℚ)) 10 10 [(5, 5), (0, 0)] 3 = []) ∧
      (∀ c : ℚ × ℚ, (3 : ℚ) / 2 ≤ c.1 → c.1 ≤ (10 : ℚ) - (3 : ℚ) / 2 →
        (3 : ℚ) / 2 ≤ c.2 → c.2 ≤ (10 : ℚ) - (3 : ℚ) / 2 →
        keptCoordb 10 10 3 c = true)) :=
  ⟨by decide, C4_create_stamps (fun _ _ => (1 : ℚ)) 10 10 [(5, 5), (0, 0)] 3
    (by decide)⟩

/-- Every value of a list lies below its bincount length. -/
theorem mem_bincountLen {xs : List ℕ} {a : ℕ} (h : a ∈ xs) :
    a < bincountLen xs := by
  induction xs with
  | nil => cases h
  | cons x t ih =>
    rw [show bincountLen (x :: t) = max (x + 1) (bincountLen t) from rfl]
    rcases List.mem_cons.1 h with rfl | h'
    · omega
    · have := ih h'
      omega

/-- Array `np.bincount xs` has one entry per possible value. -/
theorem bincount_length (xs : List ℕ) : (bincount xs).length = bincountLen xs := by
  simp [bincount]

/-- Weighted `np.bincount` has the same length. -/
theorem bincountW_length (xs : List ℕ) (w : List ℚ) :
    (bincountW xs w).length = bincountLen xs := by
  simp [bincountW]

/-- Entry `b` of `np.bincount xs` is the number of occurrences of `b`. -/
theorem bincount_getD {xs : List ℕ} {b : ℕ} (h : b < bincountLen xs) :
    (bincount xs).getD b 0 = xs.count b := by
  unfold bincount
  rw [List.getD_eq_getElem?_getD, List.getElem?_map, List.getElem?_range h]
  rfl

/-- Entry `b` of the weighted bincount is the sum of the weights at
positions holding `b`. -/
theorem bincountW_getD {xs : List ℕ} {w : List ℚ} {b : ℕ}
    (h : b < bincountLen xs) :
    (bincountW xs w).getD b 0 =
      (((xs.zip w).filter (fun q => q.1 = b)).map (fun q => q.2)).sum := by
  unfold bincountW
  rw [List.getD_eq_getElem?_getD, List.getElem?_map, List.getElem?_range h]
  rfl

/-- Counting a value in a mapped list is counting its preimages. -/
theorem count_map_eq_countP {α : Type} (f : α → ℕ) (l : List α) (b : ℕ) :
    (l.map f).count b = l.countP (fun a => f a = b) := by
  induction l with
  | nil => rfl
  | cons x t ih =>
    by_cases h : f x = b
    · simp [List.count_cons, List.countP_cons, h, ih]
    · simp [List.count_cons, List.countP_cons, h, ih]

/-- The number of occurrences of bin `b` in the flattened radius array is
the number of pixels at radius `b`. -/
theorem rList_count (H W : ℕ) (cx cy : ℚ) (b : ℕ) :
    (rList H W cx cy).count b = ringCount H W cx cy b := by
  unfold rList ringCount
  exact count_map_eq_countP _ _ _

/-- The per-bin weight sums of the zipped radius/data arrays are the ring
sums of the image. -/
theorem zipSum_eq_ringVals (img : ℕ → ℕ → ℚ) (H W : ℕ) (cx cy : ℚ) (b : ℕ) :
    ((((rList H W cx cy).zip (dList img H W)).filter
        (fun q => q.1 = b)).map (fun q => q.2)).sum =
      (ringVals img H W cx cy b).sum := by
  unfold rList dList ringVals
  rw [List.zip_map']
  rw [List.filter_map, List.map_map]
  rfl

/-- The populated radii of the profile, in both branches of the zero-count
mask, are the values of the range with a nonzero count. -/
theorem profileRadii_eq (H W : ℕ) (cx cy : ℚ) :
    profileRadii H W cx cy =
      (List.range (bincountLen (rList H W cx cy))).filter
        (fun b => decide ((rList H W cx cy).count b ≠ 0)) := by
  simp only [profileRadii]
  by_cases hc : (bincount (rList H W cx cy)).contains 0
  · rw [if_pos hc, bincount_length]
    apply List.filter_congr
    intro b hb
    rw [bincount_getD (List.mem_range.1 hb)]
  · rw [if_neg hc, bincount_length]
    symm
    apply List.filter_eq_self.2
    intro b hb
    have hmem : (rList H W cx cy).count b ∈ bincount (rList H W cx cy) :=
      List.mem_map.2 ⟨b, List.mem_range.2 (List.mem_range.1 hb), rfl⟩
    have hnot : (0 : ℕ) ∉ bincount (rList H W cx cy) := by
      intro h0
      exact hc (List.elem_eq_true_of_mem h0)
    exact decide_eq_true (fun h0 => hnot (h0 ▸ hmem))

/-- A bin is listed in the profile output exactly when it holds a pixel. -/
theorem mem_profileRadii (H W : ℕ) (cx cy : ℚ) (b : ℕ) :
    b ∈ profileRadii H W cx cy ↔ ringCount H W cx cy b ≠ 0 := by
  rw [profileRadii_eq, List.mem_filter, List.mem_range, decide_eq_true_eq,
    rList_count]
  constructor
  · exact fun h => h.2
  · intro h
    refine ⟨?_, h⟩
    have hmem : b ∈ rList H W cx cy := by
      rw [← List.count_pos_iff]
      rw [rList_count]
      omega
    exact mem_bincountLen hmem

/-- Zipping two maps over the same list collapses to a single map. -/
theorem zipWith_map_same {α β γ δ : Type} (f : β → γ → δ) (g : α → β)
    (h : α → γ) (l : List α) :
    List.zipWith f (l.map g) (l.map h) = l.map (fun a => f (g a) (h a)) := by
  induction l with
  | nil => rfl
  | cons x t ih => simp [ih]

/-- In both mask branches, the count array used by `get_radial_profile` is
the per-bin pixel count over the populated radii. -/
theorem profile_nr_eq (H W : ℕ) (cx cy : ℚ) :
    (if (bincount (rList H W cx cy)).contains 0 then
      (profileRadii H W cx cy).map (fun b => (bincount (rList H W cx cy)).getD b 0)
    else bincount (rList H W cx cy)) =
      (profileRadii H W cx cy).map (fun b => ringCount H W cx cy b) := by
  by_cases hc : (bincount (rList H W cx cy)).contains 0
  · rw [if_pos hc]
    apply List.map_congr_left
    intro b hb
    have hcount := (mem_profileRadii H W cx cy b).1 hb
    have hmem : b ∈ rList H W cx cy := by
      rw [← List.count_pos_iff, rList_count]
      omega
    rw [bincount_getD (mem_bincountLen hmem), rList_count]
  · rw [if_neg hc]
    have hradii : profileRadii H W cx cy =
        List.range (bincountLen (rList H W cx cy)) := by
      simp only [profileRadii, if_neg hc, bincount_length]
    rw [hradii]
    unfold bincount
    apply List.map_congr_left
    intro b hb
    rw [rList_count]

/-- In both mask branches, the weight-sum array used by
`get_radial_profile` is the per-bin flux sum over the populated radii. -/
theorem profile_tbin_eq (img : ℕ → ℕ → ℚ) (H W : ℕ) (cx cy : ℚ) :
    (if (bincount (rList H W cx cy)).contains 0 then
      (profileRadii H W cx cy).map
        (fun b => (bincountW (rList H W cx cy) (dList img H W)).getD b 0)
    else bincountW (rList H W cx cy) (dList img H W)) =
      (profileRadii H W cx cy).map
        (fun b => (ringVals img H W cx cy b).sum) := by
  by_cases hc : (bincount (rList H W cx cy)).contains 0
  · rw [if_pos hc]
    apply List.map_congr_left
    intro b hb
    have hcount := (mem_profileRadii H W cx cy b).1 hb
    have hmem : b ∈ rList H W cx cy := by
      rw [← List.count_pos_iff, rList_count]
      omega
    rw [bincountW_getD (mem_bincountLen hmem), zipSum_eq_ringVals]
  · rw [if_neg hc]
    have hradii : profileRadii H W cx cy =
        List.range (bincountLen (rList H W cx cy)) := by
      simp only [profileRadii, if_neg hc, bincount_length]
    rw [hradii]
    unfold bincountW
    apply List.map_congr_left
    intro b hb
    rw [zipSum_eq_ringVals]

/-- Master characterisation of `get_radial_profile`: populated radii, then
per-bin mean `sum / count`, then per-bin standard error
`std / sqrt(count)`. -/
theorem get_radial_profile_eq (img : ℕ → ℕ → ℚ) (H W : ℕ) (cx cy : ℚ) :
    get_radial_profile img H W (cx, cy) =
      (profileRadii H W cx cy,
        (profileRadii H W cx cy).map
          (fun b => (ringVals img H W cx cy b).sum / (ringCount H W cx cy b : ℚ)),
        (profileRadii H W cx cy).map
          (fun b => Real.sqrt (popVar (ringVals img H W cx cy b)) /
            Real.sqrt ((ringCount H W cx cy b : ℝ)))) := by
  have hnr := profile_nr_eq H W cx cy
  have htbin := profile_tbin_eq img H W cx cy
  simp only [get_radial_profile]
  rw [hnr, htbin, zipWith_map_same, zipWith_map_same]

/-- The truncated integer square root of the rational squared distance is
the floor of the real square root: the bin index computed by
`np.sqrt(...).astype(int)`. -/
theorem rBin_eq_floor_sqrt (cx cy : ℚ) (x y : ℕ) :
    (rBin cx cy x y : ℤ) =
      ⌊Real.sqrt (((x : ℝ) - (cx : ℝ)) ^ 2 + ((y : ℝ) - (cy : ℝ)) ^ 2)⌋ := by
  have hq : (0 : ℚ) ≤ ((x : ℚ) - cx) ^ 2 + ((y : ℚ) - cy) ^ 2 := by positivity
  set q : ℚ := ((x : ℚ) - cx) ^ 2 + ((y : ℚ) - cy) ^ 2 with hqdef
  have hcast : ((x : ℝ) - (cx : ℝ)) ^ 2 + ((y : ℝ) - (cy : ℝ)) ^ 2 = (q : ℝ) := by
    rw [hqdef]
    push_cast
    ring
  rw [hcast]
  have hrb : rBin cx cy x y = Nat.sqrt ⌊q⌋₊ := rfl
  rw [hrb]
  have h1 : ((Nat.sqrt ⌊q⌋₊ : ℝ)) ≤ Real.sqrt (q : ℝ) := by
    rw [show ((Nat.sqrt ⌊q⌋₊ : ℝ)) = Real.sqrt ((Nat.sqrt ⌊q⌋₊ : ℝ) ^ 2) from
      (Real.sqrt_sq (by positivity)).symm]
    apply Real.sqrt_le_sqrt
    have hnsq : Nat.sqrt ⌊q⌋₊ ^ 2 ≤ ⌊q⌋₊ := Nat.sqrt_le' ⌊q⌋₊
    have hfl : ((⌊q⌋₊ : ℚ)) ≤ q := Nat.floor_le hq
    have hQ : ((Nat.sqrt ⌊q⌋₊ : ℚ)) ^ 2 ≤ q :=
      le_trans (by exact_mod_cast hnsq) hfl
    calc ((Nat.sqrt ⌊q⌋₊ : ℝ)) ^ 2 = (((Nat.sqrt ⌊q⌋₊ : ℚ)) ^ 2 : ℚ) := by
          push_cast
          ring
    _ ≤ (q : ℝ) := by exact_mod_cast hQ
  have h2 : Real.sqrt (q : ℝ) < (Nat.sqrt ⌊q⌋₊ : ℝ) + 1 := by
    apply (Real.sqrt_lt' (by positivity)).2
    have hfl : ⌊q⌋₊ < (Nat.sqrt ⌊q⌋₊ + 1) ^ 2 := Nat.lt_succ_sqrt' ⌊q⌋₊
    have hql : q < (⌊q⌋₊ : ℚ) + 1 := Nat.lt_floor_add_one q
    have hQ : q < ((Nat.sqrt ⌊q⌋₊ : ℚ) + 1) ^ 2 := by
      have h1' : ((⌊q⌋₊ : ℚ)) + 1 ≤ (((Nat.sqrt ⌊q⌋₊ + 1) ^ 2 : ℕ) : ℚ) := by
        exact_mod_cast Nat.succ_le_of_lt hfl
      calc q < (⌊q⌋₊ : ℚ) + 1 := hql
      _ ≤ (((Nat.sqrt ⌊q⌋₊ + 1) ^ 2 : ℕ) : ℚ) := h1'
      _ = ((Nat.sqrt ⌊q⌋₊ : ℚ) + 1) ^ 2 := by
          push_cast
          ring
    calc (q : ℝ) < (((Nat.sqrt ⌊q⌋₊ : ℚ) + 1) ^ 2 : ℚ) := by exact_mod_cast hQ
    _ = ((Nat.sqrt ⌊q⌋₊ : ℝ) + 1) ^ 2 := by
        push_cast
        ring
  symm
  rw [Int.floor_eq_iff]
  constructor
  · exact_mod_cast h1
  · exact_mod_cast h2

/-- Claim C5: every pixel `(x, y)` is assigned the radius bin
`floor(sqrt((x - cx)^2 + (y - cy)^2))`, and for each populated bin the
returned mean flux is the bin's flux sum divided by its pixel count while
the returned standard error is the population standard deviation of the
bin's pixel values divided by `sqrt(count)`. -/
theorem C5_radial_profile (img : ℕ → ℕ → ℚ) (H W : ℕ) (cx cy : ℚ) :
    (∀ x y : ℕ, (rBin cx cy x y : ℤ) =
      ⌊Real.sqrt (((x : ℝ) - (cx : ℝ)) ^ 2 + ((y : ℝ) - (cy : ℝ)) ^ 2)⌋) ∧
    (get_radial_profile img H W (cx, cy)).2.1 =
      (get_radial_profile img H W (cx, cy)).1.map
        (fun b => (ringVals img H W cx cy b).sum / (ringCount H W cx cy b : ℚ)) ∧
    (get_radial_profile img H W (cx, cy)).2.2 =
      (get_radial_profile img H W (cx, cy)).1.map
        (fun b => Real.sqrt (popVar (ringVals img H W cx cy b)) /
          Real.sqrt ((ringCount H W cx cy b : ℝ))) := by
  refine ⟨rBin_eq_floor_sqrt cx cy, ?_, ?_⟩ <;> rw [get_radial_profile_eq]

/-- Claim C6: the radii returned by `get_radial_profile` are exactly the bins
holding at least one pixel (so no division by zero occurs), in strictly
ascending order, and the three output arrays are parallel with equal
lengths. -/
theorem C6_profile_populated_bins (img : ℕ → ℕ → ℚ) (H W : ℕ) (cx cy : ℚ) :
    (∀ b : ℕ, b ∈ (get_radial_profile img H W (cx, cy)).1 ↔
      ringCount H W cx cy b ≠ 0) ∧
    List.Sorted (· < ·) (get_radial_profile img H W (cx, cy)).1 ∧
    (get_radial_profile img H W (cx, cy)).2.1.length =
      (get_radial_profile img H W (cx, cy)).1.length ∧
    (get_radial_profile img H W (cx, cy)).2.2.length =
      (get_radial_profile img H W (cx, cy)).1.length := by
  rw [get_radial_profile_eq]
  refine ⟨fun b => mem_profileRadii H W cx cy b, ?_, by simp, by simp⟩
  rw [profileRadii_eq]
  exact (List.pairwise_lt_range _).sublist (List.filter_sublist _)

end SED
